import Mathlib

set_option maxHeartbeats 1000000

/-!
Verification development for `scripts/build-spec.ts`: a build script that
resolves `$ref` references inside an OpenAPI document, derives per-product
tags from path strings, and emits a reduced spec plus a product list.

The script's dynamic JSON values are embedded as the inductive type `J`
below; mappings are association lists in insertion order (JavaScript
objects preserve string-key insertion order and have unique keys).
The mutable `Set` named `seen` that `resolveRefs` threads through its
recursion is modelled by explicit state passing of a `List String`;
since the recursion in the script is not structurally decreasing, the
Lean model is fuel-indexed (`none` = fuel ran out) and termination of
the script is recovered as a theorem: enough fuel always exists.
-/

/-- A JavaScript/JSON value as handled by `build-spec.ts`.  `undef` is the
JavaScript `undefined` value, which arises when a reference path misses.
Numbers are modelled as integers (the script never does arithmetic on
document values; float-only behaviours such as NaN are outside the
modelled document space). -/
inductive J : Type where
  | null : J
  | undef : J
  | bool : Bool → J
  | num : Int → J
  | str : String → J
  | arr : List J → J
  | obj : List (String × J) → J
deriving Repr

/-- First-occurrence association-list lookup: JavaScript property read
`record[k]` on a plain object (keys are unique in real JS objects, so
first occurrence is the faithful choice). -/
def jlookup (entries : List (String × J)) (k : String) : Option J :=
  match entries with
  | [] => none
  | (k', v) :: rest => if k' = k then some v else jlookup rest k

/-- Decimal value of a digit list (helper for `canonIdx`). -/
def digitsToNat (acc : Nat) : List Char → Nat
  | [] => acc
  | c :: rest => digitsToNat (acc * 10 + (c.toNat - '0'.toNat)) rest

/-- A decimal string that is a canonical JavaScript array index
(`"0"`, `"1"`, ..., no leading zeros). -/
def canonIdx (s : String) : Option Nat :=
  match s.toList with
  | [] => none
  | ['0'] => some 0
  | c :: rest =>
    if c.isDigit && c ≠ '0' && rest.all Char.isDigit then
      some (digitsToNat 0 (c :: rest))
    else none

/-- Positional element read, `undefined` past the end. -/
def nthItem : List J → Nat → J
  | [], _ => J.undef
  | x :: _, 0 => x
  | _ :: rest, Nat.succ i => nthItem rest i

/-- Dynamic property read `v[k]`: object key lookup (missing key gives
`undefined`), canonical numeric index into an array, `undefined`
otherwise.  (Built-in properties such as `.length` and methods are
outside the modelled value space; reference paths in real documents
address object keys.) -/
def jget (v : J) (k : String) : J :=
  match v with
  | J.obj entries => (jlookup entries k).getD J.undef
  | J.arr items =>
    match canonIdx k with
    | some i => nthItem items i
    | none => J.undef
  | _ => J.undef

/-- One step of the walk `resolved = resolved?.[part]` in `resolveRefs`:
optional chaining maps `null`/`undefined` to `undefined`, otherwise an
ordinary property read. -/
def jstep (v : J) (k : String) : J :=
  match v with
  | J.null => J.undef
  | J.undef => J.undef
  | _ => jget v k

/-- The whole walk over the split reference path (lines 43-46 of the
script). -/
def walkDoc (spec : J) (parts : List String) : J :=
  match parts with
  | [] => spec
  | p :: rest => walkDoc (jstep spec p) rest

/-- `ref.replace('#/', '')`: JavaScript `String.replace` with a string
pattern removes only the first occurrence of `#/`. -/
def stripHashSlash : List Char → List Char
  | [] => []
  | '#' :: '/' :: rest => rest
  | c :: rest => c :: stripHashSlash rest

/-- `split('/')` on a character list: JavaScript `String.split` with a
one-character separator keeps empty fragments (`"a//b"` gives
`["a", "", "b"]`, `""` gives `[""]`).  `cur` accumulates the current
fragment in reverse. -/
def splitSlashAux (cur : List Char) : List Char → List String
  | [] => [String.mk cur.reverse]
  | '/' :: rest => String.mk cur.reverse :: splitSlashAux [] rest
  | c :: rest => splitSlashAux (c :: cur) rest

/-- `ref.replace('#/', '').split('/')` (line 42). -/
def refParts (ref : String) : List String :=
  splitSlashAux [] (stripHashSlash ref.toList)

/-- The reference-marker test of line 37: the mapping has a `$ref` key
whose value is a string; returns that string. -/
def refOf (entries : List (String × J)) : Option String :=
  match jlookup entries "$ref" with
  | some (J.str s) => some s
  | _ => none

/-- The terminal cycle placeholder `{ $circular: ref }` (line 39). -/
def circObj (ref : String) : J :=
  J.obj [("$circular", J.str ref)]

/-! `resolveRefsF` below is `resolveRefs` (lines 30-55), fuel-indexed:
every call consumes one unit of fuel, `none` means the fuel ran out.
The `seen` set is threaded through array elements and object entries in
evaluation order, modelling the single mutable `Set` shared across
sibling branches of one top-level call. -/
mutual
def resolveRefsF : Nat → J → J → List String → Option (J × List String)
  | 0, _, _, _ => none
  | Nat.succ fuel, obj, spec, seen =>
    match obj with
    | J.null => some (J.null, seen)
    | J.undef => some (J.undef, seen)
    | J.bool b => some (J.bool b, seen)
    | J.num n => some (J.num n, seen)
    | J.str s => some (J.str s, seen)
    | J.arr items =>
      match resolveArrF fuel items spec seen with
      | none => none
      | some (items', seen') => some (J.arr items', seen')
    | J.obj entries =>
      match refOf entries with
      | some ref =>
        if ref ∈ seen then some (circObj ref, seen)
        else resolveRefsF fuel (walkDoc spec (refParts ref)) spec (ref :: seen)
      | none =>
        match resolveObjF fuel entries spec seen with
        | none => none
        | some (entries', seen') => some (J.obj entries', seen')
termination_by structural fuel => fuel

def resolveArrF : Nat → List J → J → List String → Option (List J × List String)
  | _, [], _, seen => some ([], seen)
  | 0, _ :: _, _, _ => none
  | Nat.succ fuel, x :: xs, spec, seen =>
    match resolveRefsF fuel x spec seen with
    | none => none
    | some (x', s1) =>
      match resolveArrF fuel xs spec s1 with
      | none => none
      | some (xs', s2) => some (x' :: xs', s2)
termination_by structural fuel => fuel

def resolveObjF : Nat → List (String × J) → J → List String →
    Option (List (String × J) × List String)
  | _, [], _, seen => some ([], seen)
  | 0, _ :: _, _, _ => none
  | Nat.succ fuel, (k, v) :: rest, spec, seen =>
    match resolveRefsF fuel v spec seen with
    | none => none
    | some (v', s1) =>
      match resolveObjF fuel rest spec s1 with
      | none => none
      | some (rest', s2) => some ((k, v') :: rest', s2)
termination_by structural fuel => fuel
end

/-- List-prefix test (helper for the regex scans of `extractProduct`). -/
def startsWith : List Char → List Char → Bool
  | [], _ => true
  | _ :: _, [] => false
  | p :: ps, c :: cs => p = c && startsWith ps cs

/-- Once the literal part `/accounts/\x7b` (resp. `/zones/\x7b`) has
matched at a start position, match the rest of the regular expression
`[^}]+\}\/([^/]+)`: at least one non-brace character, then the closing
brace, a slash, and the capture — the maximal nonempty run of non-slash
characters.  Since `[^}]+` cannot cross a brace, backtracking never
helps: the brace matched must be the first one, so this scan is the
exact match semantics. -/
def matchSeg (r : List Char) : Option String :=
  let pre := r.takeWhile (fun c => c ≠ '\x7d')
  match r.dropWhile (fun c => c ≠ '\x7d') with
  | '\x7d' :: '/' :: r2 =>
    if pre.isEmpty then none
    else
      let cap := r2.takeWhile (fun c => c ≠ '/')
      if cap.isEmpty then none else some (String.mk cap)
  | _ => none

/-- Leftmost-match semantics of `path.match(re)`: try the pattern at
each start position in order, the earliest success wins. -/
def scanMatch (lit : List Char) : List Char → Option String
  | [] => none
  | c :: rest =>
    match (if startsWith lit (c :: rest) then
             matchSeg ((c :: rest).drop lit.length)
           else none) with
    | some cap => some cap
    | none => scanMatch lit rest

/-- `extractProduct` (lines 18-26): the segment captured by
`path.match(/\/accounts\/\{[^}]+\}\/([^/]+)/)`, else by the same
pattern with `zones`, else no product. -/
def extractProduct (path : String) : Option String :=
  match scanMatch "/accounts/\x7b".toList path.toList with
  | some m => some m
  | none => scanMatch "/zones/\x7b".toList path.toList

/-- Line 28. -/
def HTTP_METHODS : List String := ["get", "post", "put", "patch", "delete"]

/-- JavaScript truthiness (`if (x)`, `!x`, `x ? a : b`) on the modelled
values. -/
def jtruthy : J → Bool
  | J.null => false
  | J.undef => false
  | J.bool b => b
  | J.num n => decide (n ≠ 0)
  | J.str s => decide (s ≠ "")
  | J.arr _ => true
  | J.obj _ => true

/-- ASCII lowering, JavaScript `toLowerCase` restricted to the ASCII
strings these documents contain. -/
def lowerStr (s : String) : String :=
  String.mk (s.toList.map Char.toLower)

/-- One test of `tags.some(t => t.toLowerCase() === product.toLowerCase())`
(line 69).  Calling `toLowerCase` on a non-string tag would throw in
JavaScript; such documents are outside the modelled space (treated as a
non-match). -/
def tagMatches (product : String) (t : J) : Bool :=
  match t with
  | J.str u => lowerStr u == lowerStr product
  | _ => false

/-- `op.tags ? [...op.tags] : []` (line 68): copy the tag array.  A
string would spread to its characters; spreading a truthy non-iterable
throws in JavaScript and is outside the modelled space (mapped to []). -/
def copyTags (tags : J) : List J :=
  if jtruthy tags then
    match tags with
    | J.arr items => items
    | J.str s => s.toList.map (fun c => J.str (String.mk [c]))
    | _ => []
  else []

/-- Lines 67-71: the tag list of one operation record — the derived
product (a nonempty capture, hence truthy) is prepended unless some
existing tag equals it case-insensitively. -/
def opTags (path : String) (op : J) : List J :=
  let tags := copyTags (jget op "tags")
  match extractProduct path with
  | some product =>
    if tags.any (tagMatches product) then tags else J.str product :: tags
  | none => tags

/-- Lines 72-79: the reduced operation record.  Each of the three
resolved fields starts its own `resolveRefs` call with a fresh empty
`seen` set (the default argument `seen = new Set()` of line 30). -/
def buildOp (fuel : Nat) (path : String) (op : J) (spec : J) : Option J :=
  match resolveRefsF fuel (jget op "parameters") spec [] with
  | none => none
  | some (params, _) =>
    match resolveRefsF fuel (jget op "requestBody") spec [] with
    | none => none
    | some (reqBody, _) =>
      match resolveRefsF fuel (jget op "responses") spec [] with
      | none => none
      | some (responses, _) =>
        some (J.obj [("summary", jget op "summary"),
                     ("description", jget op "description"),
                     ("tags", J.arr (opTags path op)),
                     ("parameters", params),
                     ("requestBody", reqBody),
                     ("responses", responses)])

/-- Lines 64-81: the loop over the five recognized HTTP methods; a
method key whose value is not truthy produces no entry. -/
def buildMethods (fuel : Nat) (path : String) (pathItem spec : J) :
    List String → Option (List (String × J))
  | [] => some []
  | m :: ms =>
    if jtruthy (jget pathItem m) then
      match buildOp fuel path (jget pathItem m) spec with
      | none => none
      | some r =>
        match buildMethods fuel path pathItem spec ms with
        | none => none
        | some rest => some ((m, r) :: rest)
    else buildMethods fuel path pathItem spec ms

/-- Lines 60-82: the loop over `Object.entries(spec.paths || {})`; a
falsy path item is skipped (`continue`), a kept one gets a key even when
no recognized method is present. -/
def buildPaths (fuel : Nat) (spec : J) :
    List (String × J) → Option (List (String × J))
  | [] => some []
  | (path, pathItem) :: rest =>
    if jtruthy pathItem then
      match buildMethods fuel path pathItem spec HTTP_METHODS with
      | none => none
      | some ms =>
        match buildPaths fuel spec rest with
        | none => none
        | some rs => some ((path, J.obj ms) :: rs)
    else buildPaths fuel spec rest

/-- `Object.entries`: the association list of an object, index/element
pairs of an array, index/character pairs of a string, empty for other
primitives (`null`/`undefined` would throw, but every call site guards
them away with `|| \x7b\x7d`). -/
def jentries : J → List (String × J)
  | J.obj entries => entries
  | J.arr items => (items.enum).map (fun p => (toString p.1, p.2))
  | J.str s => (s.toList.enum).map (fun p => (toString p.1, J.str (String.mk [p.2])))
  | _ => []

/-- `generateSpecFile` (lines 57-85) up to the final `JSON.stringify`
serialization (string formatting is not modelled; `stringify` drops keys
whose value is `undefined`, which this model keeps as explicit `J.undef`
entries). -/
def generateSpecFile (fuel : Nat) (spec : J) : Option J :=
  match buildPaths fuel spec
      (jentries (if jtruthy (jget spec "paths") then jget spec "paths" else J.obj [])) with
  | none => none
  | some ps => some (J.obj [("paths", J.obj ps)])

/-- `Map.set` semantics on an association list in insertion order:
increment an existing product's count in place, else append it with
count 1 (lines 124-127). -/
def bump : List (String × Nat) → String → List (String × Nat)
  | [], p => [(p, 1)]
  | (q, n) :: rest, p =>
    if q = p then (q, n + 1) :: rest else (q, n) :: bump rest p

/-- The product-count loop over the sorted path keys (lines 122-128). -/
def countProducts (acc : List (String × Nat)) : List String → List (String × Nat)
  | [] => acc
  | path :: rest =>
    match extractProduct path with
    | some p => countProducts (bump acc p) rest
    | none => countProducts acc rest

/-- Stable insertion for descending-count order: an element moves past
exactly the entries with strictly larger count, so equal counts keep
their first-encounter order — the behaviour of the stable JavaScript
`sort((a, b) => b[1] - a[1])` of line 129. -/
def insertDesc (x : String × Nat) : List (String × Nat) → List (String × Nat)
  | [] => [x]
  | y :: ys => if x.2 < y.2 then y :: insertDesc x ys else x :: y :: ys

/-- Stable sort by descending count (line 129). -/
def sortDesc : List (String × Nat) → List (String × Nat)
  | [] => []
  | x :: xs => insertDesc x (sortDesc xs)

/-- Lexicographic code-unit comparison of character lists. -/
def charsLe : List Char → List Char → Bool
  | [], _ => true
  | _ :: _, [] => false
  | a :: as, b :: bs => if a = b then charsLe as bs else decide (a < b)

/-- Code-unit comparison of strings — the default JavaScript
`Array.sort` comparison of line 96 (identical to code-point order on the
ASCII path strings these documents contain). -/
def strLe (a b : String) : Bool :=
  charsLe a.toList b.toList

/-- Insertion sort by `strLe` — `Object.keys(spec.paths).sort()` of
line 96 (keys are distinct, so stability is irrelevant). -/
def insertStr (x : String) : List String → List String
  | [] => [x]
  | y :: ys => if strLe x y then x :: y :: ys else y :: insertStr x ys

def sortStrings : List String → List String
  | [] => []
  | x :: xs => insertStr x (sortStrings xs)

/-- Lines 96 and 122-129 of `main`: sort the path keys, count each
derived product in first-encounter order, stable-sort descending by
count. -/
def sortedProducts (pathKeys : List String) : List (String × Nat) :=
  sortDesc (countProducts [] (sortStrings pathKeys))

/-- The generated `PRODUCTS` list (lines 129-131): the product names in
descending-count order. -/
def productsList (spec : J) : List String :=
  (sortedProducts ((jentries (jget spec "paths")).map Prod.fst)).map Prod.fst

/-! Measures used to prove that the resolver always has enough fuel. -/

mutual
/-- Node count of a value (every constructor counts 1, list cells
count 1). -/
def jsize : J → Nat
  | J.null => 1
  | J.undef => 1
  | J.bool _ => 1
  | J.num _ => 1
  | J.str _ => 1
  | J.arr items => 1 + lsize items
  | J.obj entries => 1 + esize entries

def lsize : List J → Nat
  | [] => 0
  | x :: xs => 1 + jsize x + lsize xs

def esize : List (String × J) → Nat
  | [] => 0
  | (_, v) :: rest => 1 + jsize v + esize rest
end

mutual
/-- All string scalars occurring in a value: a finite superset of every
reference string any resolution chain can add to `seen`. -/
def strsJ : J → Finset String
  | J.null => ∅
  | J.undef => ∅
  | J.bool _ => ∅
  | J.num _ => ∅
  | J.str s => {s}
  | J.arr items => strsL items
  | J.obj entries => strsE entries

def strsL : List J → Finset String
  | [] => ∅
  | x :: xs => strsJ x ∪ strsL xs

def strsE : List (String × J) → Finset String
  | [] => ∅
  | (_, v) :: rest => strsJ v ∪ strsE rest
end

/-- The values line 31-32 of the script returns unchanged: `null`,
`undefined`, and the non-object primitives. -/
def isScalar : J → Bool
  | J.null => true
  | J.undef => true
  | J.bool _ => true
  | J.num _ => true
  | J.str _ => true
  | J.arr _ => false
  | J.obj _ => false

mutual
/-- No reference marker occurs anywhere in the value: no sub-mapping has
a `$ref` key holding a string. -/
def noMarkerJ : J → Bool
  | J.null => true
  | J.undef => true
  | J.bool _ => true
  | J.num _ => true
  | J.str _ => true
  | J.arr items => noMarkerL items
  | J.obj entries => (refOf entries).isNone && noMarkerE entries

def noMarkerL : List J → Bool
  | [] => true
  | x :: xs => noMarkerJ x && noMarkerL xs

def noMarkerE : List (String × J) → Bool
  | [] => true
  | (_, v) :: rest => noMarkerJ v && noMarkerE rest
end

/-- Number of strings that a resolution chain can still add to `seen`:
string scalars of the document or of the value being resolved that are
not in `seen` yet. -/
def refsLeft (spec : J) (s : Finset String) (seen : List String) : Nat :=
  ((strsJ spec ∪ s) \ seen.toFinset).card

/-- Sufficient fuel for `resolveRefsF fuel obj spec seen` (adequacy is
proved below): each pending reference expansion costs at most
`jsize spec + 1` fuel, and the structural descent costs `jsize obj`. -/
def fuelForJ (spec obj : J) (seen : List String) : Nat :=
  refsLeft spec (strsJ obj) seen * (jsize spec + 1) + jsize obj

/-- Sufficient fuel for `resolveArrF`. -/
def fuelForL (spec : J) (l : List J) (seen : List String) : Nat :=
  refsLeft spec (strsL l) seen * (jsize spec + 1) + lsize l

/-- Sufficient fuel for `resolveObjF`. -/
def fuelForE (spec : J) (e : List (String × J)) (seen : List String) : Nat :=
  refsLeft spec (strsE e) seen * (jsize spec + 1) + esize e

/-! ### Basic facts about the measures -/

theorem jsize_pos (v : J) : 1 ≤ jsize v := by
  cases v <;> simp [jsize]

theorem lsize_eq_zero {l : List J} (h : lsize l = 0) : l = [] := by
  cases l with
  | nil => rfl
  | cons x xs => simp [lsize] at h

theorem esize_eq_zero {e : List (String × J)} (h : esize e = 0) : e = [] := by
  cases e with
  | nil => rfl
  | cons p rest => obtain ⟨k, v⟩ := p; simp [esize] at h

theorem jsize_mem_lsize {x : J} {l : List J} (h : x ∈ l) : jsize x < lsize l := by
  induction l with
  | nil => cases h
  | cons y ys ih =>
    rcases List.mem_cons.mp h with rfl | hmem
    · simp [lsize]; omega
    · have := ih hmem; simp [lsize]; omega

theorem jlookup_some_mem {entries : List (String × J)} {k : String} {v : J}
    (h : jlookup entries k = some v) : (k, v) ∈ entries := by
  induction entries with
  | nil => simp [jlookup] at h
  | cons p rest ih =>
    obtain ⟨k', v'⟩ := p
    by_cases hk : k' = k
    · subst hk
      simp [jlookup] at h
      subst h
      exact List.mem_cons_self _ _
    · simp [jlookup, hk] at h
      exact List.mem_cons_of_mem _ (ih h)

theorem jsize_mem_esize {k : String} {v : J} {e : List (String × J)}
    (h : (k, v) ∈ e) : jsize v < esize e := by
  induction e with
  | nil => cases h
  | cons p rest ih =>
    obtain ⟨k', v'⟩ := p
    rcases List.mem_cons.mp h with heq | hmem
    · cases heq; simp [esize]; omega
    · have := ih hmem; simp [esize]; omega

theorem nthItem_size (items : List J) (i : Nat) :
    jsize (nthItem items i) ≤ 1 + lsize items := by
  induction items generalizing i with
  | nil => cases i <;> simp [nthItem, jsize]
  | cons x xs ih =>
    cases i with
    | zero => simp [nthItem, lsize]; omega
    | succ j =>
      have := ih j
      simp only [nthItem]
      simp [lsize]
      omega

theorem jsize_jget (v : J) (k : String) : jsize (jget v k) ≤ jsize v := by
  cases v with
  | obj entries =>
    simp only [jget]
    cases hl : jlookup entries k with
    | none =>
      simp only [Option.getD]
      simp [jsize]
    | some w =>
      have := jsize_mem_esize (jlookup_some_mem hl)
      simp only [Option.getD]
      simp [jsize]
      omega
  | arr items =>
    simp only [jget]
    cases hi : canonIdx k with
    | none => simp [jsize]
    | some i =>
      have := nthItem_size items i
      simp [jsize]
      omega
  | null => simp [jget, jsize]
  | undef => simp [jget, jsize]
  | bool b => simp [jget, jsize]
  | num n => simp [jget, jsize]
  | str s => simp [jget, jsize]

theorem jsize_jstep (v : J) (k : String) : jsize (jstep v k) ≤ jsize v := by
  cases v <;> simp only [jstep] <;>
    first
    | exact jsize_jget _ _
    | simp [jsize]

theorem jsize_walkDoc (spec : J) (parts : List String) :
    jsize (walkDoc spec parts) ≤ jsize spec := by
  induction parts generalizing spec with
  | nil => simp [walkDoc]
  | cons p rest ih =>
    calc jsize (walkDoc (jstep spec p) rest) ≤ jsize (jstep spec p) := ih _
    _ ≤ jsize spec := jsize_jstep _ _

/-! ### Facts about the string-scalar collections -/

theorem strsJ_mem_lsize {x : J} {l : List J} (h : x ∈ l) : strsJ x ⊆ strsL l := by
  induction l with
  | nil => cases h
  | cons y ys ih =>
    rcases List.mem_cons.mp h with rfl | hmem
    · simp [strsL]
    · simp only [strsL]
      exact (ih hmem).trans Finset.subset_union_right

theorem strsJ_of_mem_entries {k : String} {v : J} {e : List (String × J)}
    (h : (k, v) ∈ e) : strsJ v ⊆ strsE e := by
  induction e with
  | nil => cases h
  | cons p rest ih =>
    obtain ⟨k', v'⟩ := p
    rcases List.mem_cons.mp h with heq | hmem
    · cases heq; simp [strsE]
    · simp only [strsE]
      exact (ih hmem).trans Finset.subset_union_right

theorem nthItem_strs (items : List J) (i : Nat) :
    strsJ (nthItem items i) ⊆ strsL items := by
  induction items generalizing i with
  | nil => cases i <;> simp [nthItem, strsJ]
  | cons x xs ih =>
    cases i with
    | zero => simp [nthItem, strsL]
    | succ j =>
      simp only [nthItem, strsL]
      exact (ih j).trans Finset.subset_union_right

theorem strsJ_jget (v : J) (k : String) : strsJ (jget v k) ⊆ strsJ v := by
  cases v with
  | obj entries =>
    simp only [jget]
    cases hl : jlookup entries k with
    | none => simp [Option.getD, strsJ]
    | some w =>
      simp only [Option.getD]
      have := strsJ_of_mem_entries (jlookup_some_mem hl)
      simpa [strsJ] using this
  | arr items =>
    simp only [jget]
    cases hi : canonIdx k with
    | none => simp [strsJ]
    | some i => simpa [strsJ] using nthItem_strs items i
  | null => simp [jget, strsJ]
  | undef => simp [jget, strsJ]
  | bool b => simp [jget, strsJ]
  | num n => simp [jget, strsJ]
  | str s => simp [jget, strsJ]

theorem strsJ_jstep (v : J) (k : String) : strsJ (jstep v k) ⊆ strsJ v := by
  cases v <;> simp only [jstep] <;>
    first
    | exact strsJ_jget _ _
    | simp [strsJ]

theorem strsJ_walkDoc (spec : J) (parts : List String) :
    strsJ (walkDoc spec parts) ⊆ strsJ spec := by
  induction parts generalizing spec with
  | nil => simp [walkDoc]
  | cons p rest ih =>
    exact (ih (jstep spec p)).trans (strsJ_jstep _ _)

theorem refOf_mem_strsE {entries : List (String × J)} {r : String}
    (h : refOf entries = some r) : r ∈ strsE entries := by
  unfold refOf at h
  cases hl : jlookup entries "$ref" with
  | none => rw [hl] at h; simp at h
  | some v =>
    rw [hl] at h
    cases v <;> simp at h
    case str s =>
      subst h
      have := strsJ_of_mem_entries (jlookup_some_mem hl)
      simp [strsJ] at this
      exact this

/-! ### The `seen` set only grows along a resolution -/

theorem resolve_seen_mono (fuel : Nat) :
    (∀ obj spec seen out, resolveRefsF fuel obj spec seen = some out →
      seen ⊆ out.2) ∧
    (∀ l spec seen out, resolveArrF fuel l spec seen = some out →
      seen ⊆ out.2) ∧
    (∀ e spec seen out, resolveObjF fuel e spec seen = some out →
      seen ⊆ out.2) := by
  induction fuel with
  | zero =>
    refine ⟨?_, ?_, ?_⟩
    · intro obj spec seen out h
      simp [resolveRefsF] at h
    · intro l spec seen out h
      cases l with
      | nil =>
        simp [resolveArrF] at h
        simp [← h]
      | cons x xs => simp [resolveArrF] at h
    · intro e spec seen out h
      cases e with
      | nil =>
        simp [resolveObjF] at h
        simp [← h]
      | cons p rest =>
        obtain ⟨k, v⟩ := p
        simp [resolveObjF] at h
  | succ fuel ih =>
    obtain ⟨ihJ, ihL, ihE⟩ := ih
    refine ⟨?_, ?_, ?_⟩
    · intro obj spec seen out h
      cases obj with
      | null => simp [resolveRefsF] at h; simp [← h]
      | undef => simp [resolveRefsF] at h; simp [← h]
      | bool b => simp [resolveRefsF] at h; simp [← h]
      | num n => simp [resolveRefsF] at h; simp [← h]
      | str s => simp [resolveRefsF] at h; simp [← h]
      | arr items =>
        simp only [resolveRefsF] at h
        cases har : resolveArrF fuel items spec seen with
        | none => rw [har] at h; simp at h
        | some p =>
          rw [har] at h
          obtain ⟨items', seen'⟩ := p
          simp at h
          have := ihL items spec seen (items', seen') har
          rw [← h]
          exact this
      | obj entries =>
        cases href : refOf entries with
        | some ref =>
          by_cases hmem : ref ∈ seen
          · simp [resolveRefsF, href, hmem] at h
            simp [← h]
          · simp only [resolveRefsF, href, hmem, if_false] at h
            have h2 := ihJ _ _ _ _ h
            intro x hx
            exact h2 (List.mem_cons_of_mem _ hx)
        | none =>
          simp only [resolveRefsF, href] at h
          cases hob : resolveObjF fuel entries spec seen with
          | none => rw [hob] at h; simp at h
          | some p =>
            rw [hob] at h
            obtain ⟨entries', seen'⟩ := p
            simp at h
            have := ihE entries spec seen (entries', seen') hob
            rw [← h]
            exact this
    · intro l spec seen out h
      cases l with
      | nil =>
        simp [resolveArrF] at h
        simp [← h]
      | cons x xs =>
        simp only [resolveArrF] at h
        cases h1 : resolveRefsF fuel x spec seen with
        | none => rw [h1] at h; simp at h
        | some p1 =>
          rw [h1] at h
          obtain ⟨x', s1⟩ := p1
          simp only [] at h
          cases h2 : resolveArrF fuel xs spec s1 with
          | none => rw [h2] at h; simp at h
          | some p2 =>
            rw [h2] at h
            obtain ⟨xs', s2⟩ := p2
            simp at h
            have ha := ihJ x spec seen (x', s1) h1
            have hb := ihL xs spec s1 (xs', s2) h2
            rw [← h]
            exact ha.trans hb
    · intro e spec seen out h
      cases e with
      | nil =>
        simp [resolveObjF] at h
        simp [← h]
      | cons p rest =>
        obtain ⟨k, v⟩ := p
        simp only [resolveObjF] at h
        cases h1 : resolveRefsF fuel v spec seen with
        | none => rw [h1] at h; simp at h
        | some p1 =>
          rw [h1] at h
          obtain ⟨v', s1⟩ := p1
          simp only [] at h
          cases h2 : resolveObjF fuel rest spec s1 with
          | none => rw [h2] at h; simp at h
          | some p2 =>
            rw [h2] at h
            obtain ⟨rest', s2⟩ := p2
            simp at h
            have ha := ihJ v spec seen (v', s1) h1
            have hb := ihE rest spec s1 (rest', s2) h2
            rw [← h]
            exact ha.trans hb

theorem resolveRefsF_seen_mono {fuel : Nat} {obj spec : J} {seen : List String}
    {out : J × List String} (h : resolveRefsF fuel obj spec seen = some out) :
    seen ⊆ out.2 :=
  (resolve_seen_mono fuel).1 obj spec seen out h

/-! ### More fuel never changes a result that already converged -/

theorem resolve_fuel_mono (fuel : Nat) :
    (∀ obj spec seen out, resolveRefsF fuel obj spec seen = some out →
      resolveRefsF (fuel + 1) obj spec seen = some out) ∧
    (∀ l spec seen out, resolveArrF fuel l spec seen = some out →
      resolveArrF (fuel + 1) l spec seen = some out) ∧
    (∀ e spec seen out, resolveObjF fuel e spec seen = some out →
      resolveObjF (fuel + 1) e spec seen = some out) := by
  induction fuel with
  | zero =>
    refine ⟨?_, ?_, ?_⟩
    · intro obj spec seen out h
      simp [resolveRefsF] at h
    · intro l spec seen out h
      cases l with
      | nil => simpa [resolveArrF] using h
      | cons x xs => simp [resolveArrF] at h
    · intro e spec seen out h
      cases e with
      | nil => simpa [resolveObjF] using h
      | cons p rest =>
        obtain ⟨k, v⟩ := p
        simp [resolveObjF] at h
  | succ fuel ih =>
    obtain ⟨ihJ, ihL, ihE⟩ := ih
    refine ⟨?_, ?_, ?_⟩
    · intro obj spec seen out h
      cases obj with
      | null => simpa [resolveRefsF] using h
      | undef => simpa [resolveRefsF] using h
      | bool b => simpa [resolveRefsF] using h
      | num n => simpa [resolveRefsF] using h
      | str s => simpa [resolveRefsF] using h
      | arr items =>
        simp only [resolveRefsF] at h ⊢
        cases har : resolveArrF fuel items spec seen with
        | none => rw [har] at h; simp at h
        | some p =>
          rw [har] at h
          rw [ihL items spec seen p har]
          exact h
      | obj entries =>
        cases href : refOf entries with
        | some ref =>
          by_cases hmem : ref ∈ seen
          · simpa [resolveRefsF, href, hmem] using h
          · simp only [resolveRefsF, href, hmem, if_false] at h ⊢
            exact ihJ _ _ _ _ h
        | none =>
          simp only [resolveRefsF, href] at h ⊢
          cases hob : resolveObjF fuel entries spec seen with
          | none => rw [hob] at h; simp at h
          | some p =>
            rw [hob] at h
            rw [ihE entries spec seen p hob]
            exact h
    · intro l spec seen out h
      cases l with
      | nil => simpa [resolveArrF] using h
      | cons x xs =>
        simp only [resolveArrF] at h ⊢
        cases h1 : resolveRefsF fuel x spec seen with
        | none => rw [h1] at h; simp at h
        | some p1 =>
          rw [h1] at h
          rw [ihJ x spec seen p1 h1]
          obtain ⟨x', s1⟩ := p1
          simp only [] at h ⊢
          cases h2 : resolveArrF fuel xs spec s1 with
          | none => rw [h2] at h; simp at h
          | some p2 =>
            rw [h2] at h
            rw [ihL xs spec s1 p2 h2]
            exact h
    · intro e spec seen out h
      cases e with
      | nil => simpa [resolveObjF] using h
      | cons p rest =>
        obtain ⟨k, v⟩ := p
        simp only [resolveObjF] at h ⊢
        cases h1 : resolveRefsF fuel v spec seen with
        | none => rw [h1] at h; simp at h
        | some p1 =>
          rw [h1] at h
          rw [ihJ v spec seen p1 h1]
          obtain ⟨v', s1⟩ := p1
          simp only [] at h ⊢
          cases h2 : resolveObjF fuel rest spec s1 with
          | none => rw [h2] at h; simp at h
          | some p2 =>
            rw [h2] at h
            rw [ihE rest spec s1 p2 h2]
            exact h

theorem resolveRefsF_fuel_le {fuel fuel' : Nat} {obj spec : J} {seen : List String}
    {out : J × List String} (hle : fuel ≤ fuel')
    (h : resolveRefsF fuel obj spec seen = some out) :
    resolveRefsF fuel' obj spec seen = some out := by
  obtain ⟨d, rfl⟩ := Nat.exists_eq_add_of_le hle
  clear hle
  induction d with
  | zero => exact h
  | succ d ih =>
    rw [Nat.add_succ]
    exact (resolve_fuel_mono (fuel + d)).1 _ _ _ _ ih

theorem resolveArrF_fuel_le {fuel fuel' : Nat} {l : List J} {spec : J}
    {seen : List String} {out : List J × List String} (hle : fuel ≤ fuel')
    (h : resolveArrF fuel l spec seen = some out) :
    resolveArrF fuel' l spec seen = some out := by
  obtain ⟨d, rfl⟩ := Nat.exists_eq_add_of_le hle
  clear hle
  induction d with
  | zero => exact h
  | succ d ih =>
    rw [Nat.add_succ]
    exact (resolve_fuel_mono (fuel + d)).2.1 _ _ _ _ ih

theorem resolveObjF_fuel_le {fuel fuel' : Nat} {e : List (String × J)} {spec : J}
    {seen : List String} {out : List (String × J) × List String} (hle : fuel ≤ fuel')
    (h : resolveObjF fuel e spec seen = some out) :
    resolveObjF fuel' e spec seen = some out := by
  obtain ⟨d, rfl⟩ := Nat.exists_eq_add_of_le hle
  clear hle
  induction d with
  | zero => exact h
  | succ d ih =>
    rw [Nat.add_succ]
    exact (resolve_fuel_mono (fuel + d)).2.2 _ _ _ _ ih

/-! ### Adequacy: the fuel bound `fuelFor` always suffices -/

theorem refsLeft_mono {spec : J} {s s' : Finset String} {seen seen' : List String}
    (hs : s' ⊆ s) (hseen : seen ⊆ seen') :
    refsLeft spec s' seen' ≤ refsLeft spec s seen := by
  apply Finset.card_le_card
  intro x hx
  rw [Finset.mem_sdiff] at hx ⊢
  obtain ⟨hxu, hxn⟩ := hx
  constructor
  · rcases Finset.mem_union.mp hxu with h | h
    · exact Finset.mem_union_left _ h
    · exact Finset.mem_union_right _ (hs h)
  · intro hc
    apply hxn
    rw [List.mem_toFinset] at hc ⊢
    exact hseen hc

theorem refsLeft_expand {spec w : J} {s : Finset String} {seen : List String}
    {ref : String} (hw : strsJ w ⊆ strsJ spec) (href : ref ∈ s)
    (hseen : ref ∉ seen) :
    refsLeft spec (strsJ w) (ref :: seen) + 1 ≤ refsLeft spec s seen := by
  have hsub : (strsJ spec ∪ strsJ w) \ (ref :: seen).toFinset ⊆
      ((strsJ spec ∪ s) \ seen.toFinset).erase ref := by
    intro x hx
    rw [Finset.mem_sdiff] at hx
    obtain ⟨hxu, hxn⟩ := hx
    rw [Finset.mem_erase, Finset.mem_sdiff]
    have hxs : x ∈ strsJ spec := by
      rcases Finset.mem_union.mp hxu with h | h
      · exact h
      · exact hw h
    have hx1 : x ≠ ref := by
      intro e
      subst e
      exact hxn (by simp)
    have hx2 : x ∉ seen.toFinset := by
      intro hc
      apply hxn
      simp only [List.toFinset_cons, Finset.mem_insert]
      exact Or.inr hc
    exact ⟨hx1, Finset.mem_union_left _ hxs, hx2⟩
  have hmem : ref ∈ (strsJ spec ∪ s) \ seen.toFinset := by
    rw [Finset.mem_sdiff]
    exact ⟨Finset.mem_union_right _ href, by rw [List.mem_toFinset]; exact hseen⟩
  have h1 := Finset.card_le_card hsub
  have h2 := Finset.card_erase_of_mem hmem
  have h3 : 0 < ((strsJ spec ∪ s) \ seen.toFinset).card :=
    Finset.card_pos.mpr ⟨ref, hmem⟩
  unfold refsLeft
  omega

theorem resolve_adequate (fuel : Nat) :
    (∀ obj spec seen, fuelForJ spec obj seen ≤ fuel →
      ∃ out, resolveRefsF fuel obj spec seen = some out) ∧
    (∀ l spec seen, fuelForL spec l seen ≤ fuel →
      ∃ out, resolveArrF fuel l spec seen = some out) ∧
    (∀ e spec seen, fuelForE spec e seen ≤ fuel →
      ∃ out, resolveObjF fuel e spec seen = some out) := by
  induction fuel with
  | zero =>
    refine ⟨?_, ?_, ?_⟩
    · intro obj spec seen hμ
      exfalso
      have h1 := jsize_pos obj
      have h2 : jsize obj ≤ 0 := le_trans (Nat.le_add_left _ _) (by
        unfold fuelForJ at hμ; exact hμ)
      omega
    · intro l spec seen hμ
      have h2 : lsize l ≤ 0 := le_trans (Nat.le_add_left _ _) (by
        unfold fuelForL at hμ; exact hμ)
      have : l = [] := lsize_eq_zero (Nat.le_zero.mp h2)
      subst this
      exact ⟨([], seen), by simp [resolveArrF]⟩
    · intro e spec seen hμ
      have h2 : esize e ≤ 0 := le_trans (Nat.le_add_left _ _) (by
        unfold fuelForE at hμ; exact hμ)
      have : e = [] := esize_eq_zero (Nat.le_zero.mp h2)
      subst this
      exact ⟨([], seen), by simp [resolveObjF]⟩
  | succ fuel ih =>
    obtain ⟨ihJ, ihL, ihE⟩ := ih
    refine ⟨?_, ?_, ?_⟩
    · intro obj spec seen hμ
      cases obj with
      | null => exact ⟨(J.null, seen), by simp [resolveRefsF]⟩
      | undef => exact ⟨(J.undef, seen), by simp [resolveRefsF]⟩
      | bool b => exact ⟨(J.bool b, seen), by simp [resolveRefsF]⟩
      | num n => exact ⟨(J.num n, seen), by simp [resolveRefsF]⟩
      | str s => exact ⟨(J.str s, seen), by simp [resolveRefsF]⟩
      | arr items =>
        have heq : fuelForJ spec (J.arr items) seen = fuelForL spec items seen + 1 := by
          unfold fuelForJ fuelForL
          rw [show strsJ (J.arr items) = strsL items from by simp [strsJ],
            show jsize (J.arr items) = 1 + lsize items from by simp [jsize]]
          ring
        have hL : fuelForL spec items seen ≤ fuel := by omega
        obtain ⟨⟨items', seen'⟩, hout⟩ := ihL items spec seen hL
        exact ⟨(J.arr items', seen'), by simp [resolveRefsF, hout]⟩
      | obj entries =>
        cases href : refOf entries with
        | some ref =>
          by_cases hmem : ref ∈ seen
          · exact ⟨(circObj ref, seen), by simp [resolveRefsF, href, hmem]⟩
          · have hrefmem : ref ∈ strsJ (J.obj entries) := by
              rw [show strsJ (J.obj entries) = strsE entries from by simp [strsJ]]
              exact refOf_mem_strsE href
            have hexp := @refsLeft_expand spec _ _ _ _
              (strsJ_walkDoc spec (refParts ref)) hrefmem hmem
            have hw : jsize (walkDoc spec (refParts ref)) ≤ jsize spec :=
              jsize_walkDoc spec (refParts ref)
            have hμ2 : fuelForJ spec (walkDoc spec (refParts ref)) (ref :: seen) ≤ fuel := by
              unfold fuelForJ at hμ ⊢
              have hup := Nat.mul_le_mul_right (jsize spec + 1) hexp
              have hpos := jsize_pos (J.obj entries)
              have hdist : (refsLeft spec (strsJ (walkDoc spec (refParts ref))) (ref :: seen) + 1) *
                  (jsize spec + 1) =
                  refsLeft spec (strsJ (walkDoc spec (refParts ref))) (ref :: seen) *
                  (jsize spec + 1) + (jsize spec + 1) := by ring
              omega
            obtain ⟨out, hout⟩ := ihJ _ spec (ref :: seen) hμ2
            refine ⟨out, ?_⟩
            simp [resolveRefsF, href, hmem, hout]
        | none =>
          have heq : fuelForJ spec (J.obj entries) seen = fuelForE spec entries seen + 1 := by
            unfold fuelForJ fuelForE
            rw [show strsJ (J.obj entries) = strsE entries from by simp [strsJ],
              show jsize (J.obj entries) = 1 + esize entries from by simp [jsize]]
            ring
          have hE : fuelForE spec entries seen ≤ fuel := by omega
          obtain ⟨⟨entries', seen'⟩, hout⟩ := ihE entries spec seen hE
          exact ⟨(J.obj entries', seen'), by simp [resolveRefsF, href, hout]⟩
    · intro l spec seen hμ
      cases l with
      | nil => exact ⟨([], seen), by simp [resolveArrF]⟩
      | cons x xs =>
        have hsubx : strsJ x ⊆ strsL (x :: xs) := strsJ_mem_lsize (List.mem_cons_self x xs)
        have hcx := Nat.mul_le_mul_right (jsize spec + 1)
          (@refsLeft_mono spec _ _ _ _ hsubx (List.Subset.refl seen))
        have hsz : lsize (x :: xs) = 1 + jsize x + lsize xs := by simp [lsize]
        have hμx : fuelForJ spec x seen ≤ fuel := by
          unfold fuelForJ
          unfold fuelForL at hμ
          omega
        obtain ⟨⟨x', s1⟩, hx⟩ := ihJ x spec seen hμx
        have hseen1 : seen ⊆ s1 := resolveRefsF_seen_mono hx
        have hsubxs : strsL xs ⊆ strsL (x :: xs) := by
          rw [show strsL (x :: xs) = strsJ x ∪ strsL xs from by simp [strsL]]
          exact Finset.subset_union_right
        have hcxs := Nat.mul_le_mul_right (jsize spec + 1)
          (@refsLeft_mono spec _ _ _ _ hsubxs hseen1)
        have hμxs : fuelForL spec xs s1 ≤ fuel := by
          unfold fuelForL at hμ ⊢
          omega
        obtain ⟨⟨xs', s2⟩, hxs⟩ := ihL xs spec s1 hμxs
        exact ⟨(x' :: xs', s2), by simp [resolveArrF, hx, hxs]⟩
    · intro e spec seen hμ
      cases e with
      | nil => exact ⟨([], seen), by simp [resolveObjF]⟩
      | cons p rest =>
        obtain ⟨k, v⟩ := p
        have hsubv : strsJ v ⊆ strsE ((k, v) :: rest) :=
          strsJ_of_mem_entries (List.mem_cons_self _ _)
        have hcv := Nat.mul_le_mul_right (jsize spec + 1)
          (@refsLeft_mono spec _ _ _ _ hsubv (List.Subset.refl seen))
        have hsz : esize ((k, v) :: rest) = 1 + jsize v + esize rest := by simp [esize]
        have hμv : fuelForJ spec v seen ≤ fuel := by
          unfold fuelForJ
          unfold fuelForE at hμ
          omega
        obtain ⟨⟨v', s1⟩, hv⟩ := ihJ v spec seen hμv
        have hseen1 : seen ⊆ s1 := resolveRefsF_seen_mono hv
        have hsubrest : strsE rest ⊆ strsE ((k, v) :: rest) := by
          rw [show strsE ((k, v) :: rest) = strsJ v ∪ strsE rest from by simp [strsE]]
          exact Finset.subset_union_right
        have hcrest := Nat.mul_le_mul_right (jsize spec + 1)
          (@refsLeft_mono spec _ _ _ _ hsubrest hseen1)
        have hμrest : fuelForE spec rest s1 ≤ fuel := by
          unfold fuelForE at hμ ⊢
          omega
        obtain ⟨⟨rest', s2⟩, hrest⟩ := ihE rest spec s1 hμrest
        exact ⟨((k, v') :: rest', s2), by simp [resolveObjF, hv, hrest]⟩

/-- Adequacy for the main function: `fuelForJ` fuel always produces a
result. -/
theorem resolveRefsF_total (obj spec : J) (seen : List String) :
    ∃ out, resolveRefsF (fuelForJ spec obj seen) obj spec seen = some out :=
  (resolve_adequate (fuelForJ spec obj seen)).1 obj spec seen (Nat.le_refl _)

/-! ### Structural behaviour of the resolver -/

theorem resolveRefsF_scalar {v : J} (hs : isScalar v = true) (fuel : Nat)
    (spec : J) (seen : List String) :
    resolveRefsF (fuel + 1) v spec seen = some (v, seen) := by
  cases v <;> simp [isScalar] at hs ⊢ <;> simp [resolveRefsF]

theorem resolveArrF_length {fuel : Nat} {l l' : List J} {spec : J}
    {seen s' : List String} (h : resolveArrF fuel l spec seen = some (l', s')) :
    l'.length = l.length := by
  induction fuel generalizing l l' seen s' with
  | zero =>
    cases l with
    | nil => simp [resolveArrF] at h; simp [← h.1]
    | cons x xs => simp [resolveArrF] at h
  | succ fuel ih =>
    cases l with
    | nil => simp [resolveArrF] at h; simp [← h.1]
    | cons x xs =>
      simp only [resolveArrF] at h
      cases h1 : resolveRefsF fuel x spec seen with
      | none => rw [h1] at h; simp at h
      | some p1 =>
        rw [h1] at h
        obtain ⟨x', s1⟩ := p1
        simp only [] at h
        cases h2 : resolveArrF fuel xs spec s1 with
        | none => rw [h2] at h; simp at h
        | some p2 =>
          rw [h2] at h
          obtain ⟨xs', s2⟩ := p2
          simp at h
          obtain ⟨h3, h4⟩ := h
          rw [← h3]
          simp [ih h2]

theorem resolveObjF_keys {fuel : Nat} {e e' : List (String × J)} {spec : J}
    {seen s' : List String} (h : resolveObjF fuel e spec seen = some (e', s')) :
    e'.map Prod.fst = e.map Prod.fst := by
  induction fuel generalizing e e' seen s' with
  | zero =>
    cases e with
    | nil => simp [resolveObjF] at h; simp [← h.1]
    | cons p rest => obtain ⟨k, v⟩ := p; simp [resolveObjF] at h
  | succ fuel ih =>
    cases e with
    | nil => simp [resolveObjF] at h; simp [← h.1]
    | cons p rest =>
      obtain ⟨k, v⟩ := p
      simp only [resolveObjF] at h
      cases h1 : resolveRefsF fuel v spec seen with
      | none => rw [h1] at h; simp at h
      | some p1 =>
        rw [h1] at h
        obtain ⟨v', s1⟩ := p1
        simp only [] at h
        cases h2 : resolveObjF fuel rest spec s1 with
        | none => rw [h2] at h; simp at h
        | some p2 =>
          rw [h2] at h
          obtain ⟨rest', s2⟩ := p2
          simp at h
          obtain ⟨h3, h4⟩ := h
          rw [← h3]
          simp [ih h2]

theorem resolveRefsF_arr_shape {fuel : Nat} {items : List J} {spec v : J}
    {seen s' : List String}
    (h : resolveRefsF fuel (J.arr items) spec seen = some (v, s')) :
    ∃ items', v = J.arr items' ∧ items'.length = items.length := by
  cases fuel with
  | zero => simp [resolveRefsF] at h
  | succ fuel =>
    simp only [resolveRefsF] at h
    cases har : resolveArrF fuel items spec seen with
    | none => rw [har] at h; simp at h
    | some p =>
      rw [har] at h
      obtain ⟨items', seen'⟩ := p
      simp at h
      exact ⟨items', h.1.symm, resolveArrF_length har⟩

theorem resolveRefsF_nonmarker_shape {fuel : Nat} {entries : List (String × J)}
    {spec v : J} {seen s' : List String} (href : refOf entries = none)
    (h : resolveRefsF fuel (J.obj entries) spec seen = some (v, s')) :
    ∃ entries', v = J.obj entries' ∧
      entries'.map Prod.fst = entries.map Prod.fst := by
  cases fuel with
  | zero => simp [resolveRefsF] at h
  | succ fuel =>
    simp only [resolveRefsF, href] at h
    cases hob : resolveObjF fuel entries spec seen with
    | none => rw [hob] at h; simp at h
    | some p =>
      rw [hob] at h
      obtain ⟨entries', seen'⟩ := p
      simp at h
      exact ⟨entries', h.1.symm, resolveObjF_keys hob⟩

/-- Resolving a marker whose reference string is new adds it to `seen`. -/
theorem resolveRefsF_marker_adds {fuel : Nat} {entries : List (String × J)}
    {spec : J} {seen : List String} {r : String} {out : J × List String}
    (href : refOf entries = some r) (hnew : r ∉ seen)
    (h : resolveRefsF fuel (J.obj entries) spec seen = some out) :
    r ∈ out.2 := by
  cases fuel with
  | zero => simp [resolveRefsF] at h
  | succ fuel =>
    simp only [resolveRefsF, href, hnew, if_false] at h
    exact resolveRefsF_seen_mono h (List.mem_cons_self _ _)

/-! ### The reference walk propagates absence -/

theorem walkDoc_undef (parts : List String) : walkDoc J.undef parts = J.undef := by
  induction parts with
  | nil => simp [walkDoc]
  | cons p rest ih => simp [walkDoc, jstep, ih]

theorem walkDoc_append (spec : J) (p1 p2 : List String) :
    walkDoc spec (p1 ++ p2) = walkDoc (walkDoc spec p1) p2 := by
  induction p1 generalizing spec with
  | nil => simp [walkDoc]
  | cons p rest ih => simp [walkDoc, ih]

/-! ### Marker-free values resolve to themselves -/

theorem resolve_noMarker (fuel : Nat) :
    (∀ v spec seen, noMarkerJ v = true → jsize v ≤ fuel →
      resolveRefsF fuel v spec seen = some (v, seen)) ∧
    (∀ l spec seen, noMarkerL l = true → lsize l ≤ fuel →
      resolveArrF fuel l spec seen = some (l, seen)) ∧
    (∀ e spec seen, noMarkerE e = true → esize e ≤ fuel →
      resolveObjF fuel e spec seen = some (e, seen)) := by
  induction fuel with
  | zero =>
    refine ⟨?_, ?_, ?_⟩
    · intro v spec seen hm hsz
      have := jsize_pos v
      omega
    · intro l spec seen hm hsz
      have : l = [] := lsize_eq_zero (Nat.le_zero.mp hsz)
      subst this
      simp [resolveArrF]
    · intro e spec seen hm hsz
      have : e = [] := esize_eq_zero (Nat.le_zero.mp hsz)
      subst this
      simp [resolveObjF]
  | succ fuel ih =>
    obtain ⟨ihJ, ihL, ihE⟩ := ih
    refine ⟨?_, ?_, ?_⟩
    · intro v spec seen hm hsz
      cases v with
      | null => simp [resolveRefsF]
      | undef => simp [resolveRefsF]
      | bool b => simp [resolveRefsF]
      | num n => simp [resolveRefsF]
      | str s => simp [resolveRefsF]
      | arr items =>
        rw [show noMarkerJ (J.arr items) = noMarkerL items from by simp [noMarkerJ]] at hm
        rw [show jsize (J.arr items) = 1 + lsize items from by simp [jsize]] at hsz
        simp [resolveRefsF, ihL items spec seen hm (by omega)]
      | obj entries =>
        have hm2 : refOf entries = none ∧ noMarkerE entries = true := by
          rw [show noMarkerJ (J.obj entries) =
            ((refOf entries).isNone && noMarkerE entries) from by simp [noMarkerJ]] at hm
          simp at hm
          exact hm
        rw [show jsize (J.obj entries) = 1 + esize entries from by simp [jsize]] at hsz
        simp [resolveRefsF, hm2.1, ihE entries spec seen hm2.2 (by omega)]
    · intro l spec seen hm hsz
      cases l with
      | nil => simp [resolveArrF]
      | cons x xs =>
        rw [show noMarkerL (x :: xs) = (noMarkerJ x && noMarkerL xs) from by
          simp [noMarkerL]] at hm
        rw [show lsize (x :: xs) = 1 + jsize x + lsize xs from by simp [lsize]] at hsz
        simp at hm
        simp [resolveArrF, ihJ x spec seen hm.1 (by omega),
          ihL xs spec seen hm.2 (by omega)]
    · intro e spec seen hm hsz
      cases e with
      | nil => simp [resolveObjF]
      | cons p rest =>
        obtain ⟨k, v⟩ := p
        rw [show noMarkerE ((k, v) :: rest) = (noMarkerJ v && noMarkerE rest) from by
          simp [noMarkerE]] at hm
        rw [show esize ((k, v) :: rest) = 1 + jsize v + esize rest from by
          simp [esize]] at hsz
        simp at hm
        simp [resolveObjF, ihJ v spec seen hm.1 (by omega),
          ihE rest spec seen hm.2 (by omega)]

/-- Resolving a two-element array threads `seen` from the first element
into the second. -/
theorem resolveArrF_pair {f : Nat} {x y x' y' : J} {spec : J}
    {seen s1 s2 : List String}
    (hx : resolveRefsF (f + 1) x spec seen = some (x', s1))
    (hy : resolveRefsF f y spec s1 = some (y', s2)) :
    resolveArrF (f + 2) [x, y] spec seen = some ([x', y'], s2) := by
  simp only [resolveArrF]
  rw [hx]
  simp only []
  rw [hy]

/-! ### Claim theorems -/

/-- C1: The Reference Resolver terminates on every input: for any value
and document (including a document with a cyclic chain A → B → A,
checked concretely in the third conjunct) some amount of fuel suffices;
and when the reference string of a marker is already in the active
`seen` set the resolver returns the terminal `$circular` placeholder
carrying that string, without recursing further (the `seen` set is left
unchanged). -/
theorem C1_resolver_terminates :
    (∀ obj spec : J, ∀ seen : List String,
      ∃ fuel out, resolveRefsF fuel obj spec seen = some out) ∧
    (∀ fuel : Nat, ∀ entries : List (String × J), ∀ spec : J,
      ∀ seen : List String, ∀ ref : String,
      refOf entries = some ref → ref ∈ seen →
      resolveRefsF (fuel + 1) (J.obj entries) spec seen =
        some (circObj ref, seen)) ∧
    resolveRefsF 3 (J.obj [("$ref", J.str "#/defs/A")])
      (J.obj [("defs", J.obj
        [("A", J.obj [("$ref", J.str "#/defs/B")]),
         ("B", J.obj [("$ref", J.str "#/defs/A")])])]) [] =
      some (circObj "#/defs/A", ["#/defs/B", "#/defs/A"]) := by
  refine ⟨?_, ?_, rfl⟩
  · intro obj spec seen
    exact ⟨fuelForJ spec obj seen, resolveRefsF_total obj spec seen⟩
  · intro fuel entries spec seen ref href hmem
    simp [resolveRefsF, href, hmem]

theorem C1_resolver_terminates_witness :
    resolveRefsF 1 (J.obj [("$ref", J.str "#/x")]) J.null ["#/x"] =
      some (circObj "#/x", ["#/x"]) :=
  C1_resolver_terminates.2.1 0 [("$ref", J.str "#/x")] J.null ["#/x"] "#/x"
    rfl (by simp)

/-- C2: Within one top-level resolver invocation the `seen` set is
shared across sibling branches: once a sibling resolves a marker whose
reference string `r` was new, a later sibling holding the very same
marker gets the `$circular` placeholder for `r` even without any real
cycle (first conjunct).  The Spec Projector, however, resolves
parameters, request body and responses by three resolver calls that each
start from an empty `seen` set, so the same reference resolves fully in
all three fields (second conjunct: concrete operation whose three fields
hold the same `#/a` marker, all three resolving to the target). -/
theorem C2_shared_visited :
    (∀ fuel : Nat, ∀ entries : List (String × J), ∀ spec : J,
      ∀ seen s1 : List String, ∀ r : String, ∀ v : J,
      refOf entries = some r → r ∉ seen →
      resolveRefsF fuel (J.obj entries) spec seen = some (v, s1) →
      resolveRefsF (fuel + 2) (J.arr [J.obj entries, J.obj entries]) spec seen =
        some (J.arr [v, circObj r], s1)) ∧
    buildOp 9 "/p"
      (J.obj [("parameters", J.obj [("$ref", J.str "#/a")]),
              ("requestBody", J.obj [("$ref", J.str "#/a")]),
              ("responses", J.obj [("$ref", J.str "#/a")])])
      (J.obj [("a", J.str "X")]) =
      some (J.obj [("summary", J.undef), ("description", J.undef),
                   ("tags", J.arr []),
                   ("parameters", J.str "X"),
                   ("requestBody", J.str "X"),
                   ("responses", J.str "X")]) := by
  constructor
  · intro fuel entries spec seen s1 r v href hnew h
    have hr1 : r ∈ s1 :=
      resolveRefsF_marker_adds href hnew h
    cases fuel with
    | zero => simp [resolveRefsF] at h
    | succ f =>
      cases f with
      | zero =>
        simp [resolveRefsF, href, hnew, if_false] at h
      | succ g =>
        have hsecond : resolveRefsF (g + 1) (J.obj entries) spec s1 =
            some (circObj r, s1) := by
          simp [resolveRefsF, href, hr1]
        have hpair := resolveArrF_pair h hsecond
        show resolveRefsF (g + 3 + 1) _ spec seen = _
        simp only [resolveRefsF]
        rw [show g + 3 = g + 1 + 2 from rfl, hpair]
  · rfl

theorem C2_shared_visited_witness :
    resolveRefsF 5
      (J.arr [J.obj [("$ref", J.str "#/a")], J.obj [("$ref", J.str "#/a")]])
      (J.obj [("a", J.num 1)]) [] =
      some (J.arr [J.num 1, circObj "#/a"], ["#/a"]) :=
  C2_shared_visited.1 3 [("$ref", J.str "#/a")] (J.obj [("a", J.num 1)])
    [] ["#/a"] "#/a" (J.num 1) rfl (by simp) rfl

/-- Each output element of an array resolution is the resolution of the
input element at the same position (for some intermediate `seen`
state). -/
theorem resolveArrF_forall2 {fuel : Nat} {l l' : List J} {spec : J}
    {seen s' : List String} (h : resolveArrF fuel l spec seen = some (l', s')) :
    List.Forall₂ (fun x x' => ∃ f s t, resolveRefsF f x spec s = some (x', t)) l l' := by
  induction fuel generalizing l l' seen s' with
  | zero =>
    cases l with
    | nil =>
      simp [resolveArrF] at h
      obtain ⟨rfl, rfl⟩ := h
      exact List.Forall₂.nil
    | cons x xs => simp [resolveArrF] at h
  | succ fuel ih =>
    cases l with
    | nil =>
      simp [resolveArrF] at h
      obtain ⟨rfl, rfl⟩ := h
      exact List.Forall₂.nil
    | cons x xs =>
      simp only [resolveArrF] at h
      cases h1 : resolveRefsF fuel x spec seen with
      | none => rw [h1] at h; simp at h
      | some p1 =>
        rw [h1] at h
        obtain ⟨x', s1⟩ := p1
        simp only [] at h
        cases h2 : resolveArrF fuel xs spec s1 with
        | none => rw [h2] at h; simp at h
        | some p2 =>
          rw [h2] at h
          obtain ⟨xs', s2⟩ := p2
          simp at h
          obtain ⟨h3, h4⟩ := h
          rw [← h3]
          exact List.Forall₂.cons ⟨fuel, seen, s1, h1⟩ (ih h2)

/-- C3: null and non-mapping scalars resolve to themselves (first
conjunct); sequences resolve to sequences of the same length, whose
elements are element-wise resolutions in order (second conjunct);
non-marker mappings resolve to mappings with the same keys in the same
order (third conjunct); and the acyclic chain A → B → C with scalar C
resolves, from an empty `seen` set, to exactly that scalar (fourth
conjunct). -/
theorem C3_acyclic_correct :
    (∀ fuel : Nat, ∀ v spec : J, ∀ seen : List String, isScalar v = true →
      resolveRefsF (fuel + 1) v spec seen = some (v, seen)) ∧
    (∀ fuel : Nat, ∀ items : List J, ∀ spec v : J, ∀ seen s' : List String,
      resolveRefsF fuel (J.arr items) spec seen = some (v, s') →
      ∃ items', v = J.arr items' ∧ items'.length = items.length ∧
        List.Forall₂ (fun x x' => ∃ f s t, resolveRefsF f x spec s = some (x', t))
          items items') ∧
    (∀ fuel : Nat, ∀ entries : List (String × J), ∀ spec v : J,
      ∀ seen s' : List String, refOf entries = none →
      resolveRefsF fuel (J.obj entries) spec seen = some (v, s') →
      ∃ entries', v = J.obj entries' ∧
        entries'.map Prod.fst = entries.map Prod.fst) ∧
    (∀ c : J, isScalar c = true →
      resolveRefsF 4 (J.obj [("$ref", J.str "#/defs/A")])
        (J.obj [("defs", J.obj
          [("A", J.obj [("$ref", J.str "#/defs/B")]),
           ("B", J.obj [("$ref", J.str "#/defs/C")]),
           ("C", c)])]) [] =
        some (c, ["#/defs/C", "#/defs/B", "#/defs/A"])) := by
  refine ⟨?_, ?_, ?_, ?_⟩
  · intro fuel v spec seen hs
    exact resolveRefsF_scalar hs fuel spec seen
  · intro fuel items spec v seen s' h
    cases fuel with
    | zero => simp [resolveRefsF] at h
    | succ fuel =>
      simp only [resolveRefsF] at h
      cases har : resolveArrF fuel items spec seen with
      | none => rw [har] at h; simp at h
      | some p =>
        rw [har] at h
        obtain ⟨items', seen'⟩ := p
        simp at h
        exact ⟨items', h.1.symm, resolveArrF_length har, resolveArrF_forall2 har⟩
  · intro fuel entries spec v seen s' href h
    exact resolveRefsF_nonmarker_shape href h
  · intro c hs
    cases c <;> simp [isScalar] at hs <;> rfl

theorem C3_acyclic_correct_witness :
    resolveRefsF 1 (J.num 5) J.null [] = some (J.num 5, []) ∧
    (∃ items', J.arr [J.null] = J.arr items' ∧ items'.length = 1 ∧
      List.Forall₂ (fun x x' => ∃ f s t, resolveRefsF f x J.null s = some (x', t))
        [J.null] items') ∧
    (∃ entries', J.obj [("a", J.bool true)] = J.obj entries' ∧
      entries'.map Prod.fst = [("a", J.bool true)].map Prod.fst) ∧
    resolveRefsF 4 (J.obj [("$ref", J.str "#/defs/A")])
      (J.obj [("defs", J.obj
        [("A", J.obj [("$ref", J.str "#/defs/B")]),
         ("B", J.obj [("$ref", J.str "#/defs/C")]),
         ("C", J.num 7)])]) [] =
      some (J.num 7, ["#/defs/C", "#/defs/B", "#/defs/A"]) := by
  refine ⟨C3_acyclic_correct.1 0 (J.num 5) J.null [] rfl, ?_, ?_, ?_⟩
  · have h2 := C3_acyclic_correct.2.1 3 [J.null] J.null (J.arr [J.null]) [] []
      (by rfl)
    exact h2
  · have h3 := C3_acyclic_correct.2.2.1 3 [("a", J.bool true)] J.null
      (J.obj [("a", J.bool true)]) [] [] (by rfl) (by rfl)
    exact h3
  · exact C3_acyclic_correct.2.2.2 (J.num 7) rfl

/-- C4: the Reference Resolver is the identity on marker-free values:
given fuel at least the node count of the value, it returns the value
itself with `seen` unchanged (first conjunct), so feeding the output
back through the resolver returns it unchanged again (second
conjunct). -/
theorem C4_idempotent :
    ∀ fuel : Nat, ∀ v spec : J, ∀ seen : List String,
      noMarkerJ v = true → jsize v ≤ fuel →
      resolveRefsF fuel v spec seen = some (v, seen) ∧
      (∀ out, resolveRefsF fuel v spec seen = some out →
        resolveRefsF fuel out.1 spec out.2 = some (v, out.2)) := by
  intro fuel v spec seen hm hsz
  have h1 := (resolve_noMarker fuel).1 v spec seen hm hsz
  refine ⟨h1, ?_⟩
  intro out hout
  rw [h1] at hout
  have h2 := Option.some.inj hout
  subst h2
  exact h1

theorem C4_idempotent_witness :
    resolveRefsF 9 (J.obj [("a", J.arr [J.num 1, J.str "x"]), ("b", J.null)])
      (J.obj [("a", J.num 2)]) ["s"] =
      some (J.obj [("a", J.arr [J.num 1, J.str "x"]), ("b", J.null)], ["s"]) :=
  (C4_idempotent 9 (J.obj [("a", J.arr [J.num 1, J.str "x"]), ("b", J.null)])
    (J.obj [("a", J.num 2)]) ["s"]
    (by simp [noMarkerJ, noMarkerE, noMarkerL, refOf, jlookup])
    (by simp [jsize, esize, lsize])).1

/-- C5: a reference whose slash-delimited lookup path misses at some
segment resolves to the JavaScript `undefined` value and raises no
fault: the marker resolves to `some (J.undef, ...)` (first conjunct),
and once the walk has produced `undefined` at any segment, all further
segments keep it `undefined` (second conjunct). -/
theorem C5_missing_ref :
    (∀ fuel : Nat, ∀ entries : List (String × J), ∀ spec : J,
      ∀ seen : List String, ∀ r : String,
      refOf entries = some r → r ∉ seen →
      walkDoc spec (refParts r) = J.undef →
      resolveRefsF (fuel + 2) (J.obj entries) spec seen =
        some (J.undef, r :: seen)) ∧
    (∀ spec : J, ∀ p1 p2 : List String,
      walkDoc spec p1 = J.undef → walkDoc spec (p1 ++ p2) = J.undef) := by
  constructor
  · intro fuel entries spec seen r href hnew hwalk
    have : (fuel + 2) = (fuel + 1) + 1 := rfl
    rw [this]
    simp only [resolveRefsF, href, hnew, if_false]
    rw [hwalk]
  · intro spec p1 p2 h
    rw [walkDoc_append, h, walkDoc_undef]

theorem C5_missing_ref_witness :
    resolveRefsF 2 (J.obj [("$ref", J.str "#/nope/x")])
      (J.obj [("a", J.num 1)]) [] = some (J.undef, ["#/nope/x"]) ∧
    walkDoc (J.obj [("a", J.num 1)]) (["nope"] ++ ["x", "y"]) = J.undef := by
  constructor
  · exact C5_missing_ref.1 0 [("$ref", J.str "#/nope/x")]
      (J.obj [("a", J.num 1)]) [] "#/nope/x" rfl (by simp) rfl
  · exact C5_missing_ref.2 (J.obj [("a", J.num 1)]) ["nope"] ["x", "y"] rfl

/-- C6: product derivation tries the `accounts` pattern first and then
the `zones` pattern, returning the first match's captured segment: the
three specified examples, plus a path matching both patterns where the
`accounts` capture wins even though the `zones` occurrence comes
first in the string. -/
theorem C6_extract_product :
    extractProduct "/accounts/\x7baccount_id\x7d/workers/scripts" = some "workers" ∧
    extractProduct "/zones/\x7bzone_id\x7d/dns_records" = some "dns_records" ∧
    extractProduct "/user/tokens" = none ∧
    extractProduct "/zones/\x7bz\x7d/first/accounts/\x7ba\x7d/second" = some "second" :=
  ⟨rfl, rfl, rfl, rfl⟩

/-- C10: a mapping is treated as a reference marker exactly when its
`$ref` key holds a string, even when other keys are present: in that
case every other key is discarded — the resolution coincides with that
of the bare one-key marker (first conjunct) — while a mapping whose
`$ref` key holds a non-string resolves as an ordinary mapping with all
keys preserved in order (second conjunct). -/
theorem C10_marker_shape :
    (∀ fuel : Nat, ∀ entries : List (String × J), ∀ r : String, ∀ spec : J,
      ∀ seen : List String, jlookup entries "$ref" = some (J.str r) →
      resolveRefsF fuel (J.obj entries) spec seen =
        resolveRefsF fuel (J.obj [("$ref", J.str r)]) spec seen) ∧
    (∀ fuel : Nat, ∀ entries : List (String × J), ∀ v : J, ∀ spec w : J,
      ∀ seen s' : List String, jlookup entries "$ref" = some v →
      (∀ t, v ≠ J.str t) →
      resolveRefsF fuel (J.obj entries) spec seen = some (w, s') →
      ∃ entries', w = J.obj entries' ∧
        entries'.map Prod.fst = entries.map Prod.fst) := by
  constructor
  · intro fuel entries r spec seen hl
    have href : refOf entries = some r := by
      unfold refOf
      rw [hl]
    cases fuel with
    | zero => rfl
    | succ fuel =>
      simp only [resolveRefsF, href]
      rw [show refOf [("$ref", J.str r)] = some r from rfl]
  · intro fuel entries v spec w seen s' hl hns h
    have href : refOf entries = none := by
      unfold refOf
      rw [hl]
      cases v with
      | str t => exact absurd rfl (hns t)
      | null => rfl
      | undef => rfl
      | bool b => rfl
      | num n => rfl
      | arr items => rfl
      | obj e => rfl
    exact resolveRefsF_nonmarker_shape href h

theorem C10_marker_shape_witness :
    resolveRefsF 3
      (J.obj [("x", J.num 1), ("$ref", J.str "#/a"), ("y", J.bool true)])
      (J.obj [("a", J.num 2)]) [] =
      resolveRefsF 3 (J.obj [("$ref", J.str "#/a")]) (J.obj [("a", J.num 2)]) [] ∧
    (∃ entries', (J.obj [("$ref", J.num 9), ("y", J.bool true)] : J) = J.obj entries' ∧
      entries'.map Prod.fst =
        [("$ref", J.num 9), ("y", J.bool true)].map Prod.fst) := by
  constructor
  · exact C10_marker_shape.1 3
      [("x", J.num 1), ("$ref", J.str "#/a"), ("y", J.bool true)] "#/a"
      (J.obj [("a", J.num 2)]) [] rfl
  · have h := C10_marker_shape.2 4 [("$ref", J.num 9), ("y", J.bool true)]
      (J.num 9) (J.obj [("a", J.num 2)])
      (J.obj [("$ref", J.num 9), ("y", J.bool true)]) [] []
      rfl (by intro t h; cases h) (by rfl)
    exact h

/-! ### The projector pipeline, field by field -/

theorem buildOp_tags {fuel : Nat} {path : String} {op spec r : J}
    (h : buildOp fuel path op spec = some r) :
    jget r "tags" = J.arr (opTags path op) := by
  unfold buildOp at h
  cases h1 : resolveRefsF fuel (jget op "parameters") spec [] with
  | none => rw [h1] at h; simp at h
  | some p1 =>
    rw [h1] at h
    obtain ⟨params, s1⟩ := p1
    simp only [] at h
    cases h2 : resolveRefsF fuel (jget op "requestBody") spec [] with
    | none => rw [h2] at h; simp at h
    | some p2 =>
      rw [h2] at h
      obtain ⟨reqBody, s2⟩ := p2
      simp only [] at h
      cases h3 : resolveRefsF fuel (jget op "responses") spec [] with
      | none => rw [h3] at h; simp at h
      | some p3 =>
        rw [h3] at h
        obtain ⟨responses, s3⟩ := p3
        simp at h
        rw [← h]
        rfl

theorem buildMethods_mem {fuel : Nat} {path : String} {item spec : J}
    {ms0 : List String} {out : List (String × J)} {m : String}
    (h : buildMethods fuel path item spec ms0 = some out)
    (hm : m ∈ ms0) (ht : jtruthy (jget item m) = true) :
    ∃ r, (m, r) ∈ out ∧ buildOp fuel path (jget item m) spec = some r := by
  induction ms0 generalizing out with
  | nil => cases hm
  | cons m0 ms ih =>
    simp only [buildMethods] at h
    rcases List.mem_cons.mp hm with rfl | hmem
    · rw [if_pos ht] at h
      cases hb : buildOp fuel path (jget item m) spec with
      | none => rw [hb] at h; simp at h
      | some r =>
        rw [hb] at h
        simp only [] at h
        cases hrest : buildMethods fuel path item spec ms with
        | none => rw [hrest] at h; simp at h
        | some rest =>
          rw [hrest] at h
          simp at h
          subst h
          exact ⟨r, List.mem_cons_self _ _, rfl⟩
    · by_cases h0 : jtruthy (jget item m0) = true
      · rw [if_pos h0] at h
        cases hb : buildOp fuel path (jget item m0) spec with
        | none => rw [hb] at h; simp at h
        | some r0 =>
          rw [hb] at h
          simp only [] at h
          cases hrest : buildMethods fuel path item spec ms with
          | none => rw [hrest] at h; simp at h
          | some rest =>
            rw [hrest] at h
            simp at h
            subst h
            obtain ⟨r, hr1, hr2⟩ := ih hrest hmem
            exact ⟨r, List.mem_cons_of_mem _ hr1, hr2⟩
      · rw [if_neg h0] at h
        exact ih h hmem

theorem buildMethods_keys {fuel : Nat} {path : String} {item spec : J}
    {ms0 : List String} {out : List (String × J)}
    (h : buildMethods fuel path item spec ms0 = some out) :
    out.map Prod.fst = ms0.filter (fun m => jtruthy (jget item m)) := by
  induction ms0 generalizing out with
  | nil =>
    simp [buildMethods] at h
    simp [← h]
  | cons m0 ms ih =>
    simp only [buildMethods] at h
    by_cases h0 : jtruthy (jget item m0) = true
    · rw [if_pos h0] at h
      cases hb : buildOp fuel path (jget item m0) spec with
      | none => rw [hb] at h; simp at h
      | some r0 =>
        rw [hb] at h
        simp only [] at h
        cases hrest : buildMethods fuel path item spec ms with
        | none => rw [hrest] at h; simp at h
        | some rest =>
          rw [hrest] at h
          simp at h
          rw [← h]
          simp [List.filter_cons, h0, ih hrest]
    · rw [if_neg h0] at h
      rw [ih h]
      simp only [List.filter_cons]
      rw [if_neg (by simpa using h0)]

theorem buildPaths_mem {fuel : Nat} {spec : J} {entries out : List (String × J)}
    {path : String} {item : J}
    (h : buildPaths fuel spec entries = some out)
    (hmem : (path, item) ∈ entries) (ht : jtruthy item = true) :
    ∃ ms, (path, J.obj ms) ∈ out ∧
      buildMethods fuel path item spec HTTP_METHODS = some ms := by
  induction entries generalizing out with
  | nil => cases hmem
  | cons p0 rest ih =>
    obtain ⟨path0, item0⟩ := p0
    simp only [buildPaths] at h
    rcases List.mem_cons.mp hmem with heq | hmem2
    · cases heq
      rw [if_pos ht] at h
      cases hb : buildMethods fuel path item spec HTTP_METHODS with
      | none => rw [hb] at h; simp at h
      | some ms =>
        rw [hb] at h
        simp only [] at h
        cases hrest : buildPaths fuel spec rest with
        | none => rw [hrest] at h; simp at h
        | some rs =>
          rw [hrest] at h
          simp at h
          subst h
          exact ⟨ms, List.mem_cons_self _ _, rfl⟩
    · by_cases h0 : jtruthy item0 = true
      · rw [if_pos h0] at h
        cases hb : buildMethods fuel path0 item0 spec HTTP_METHODS with
        | none => rw [hb] at h; simp at h
        | some ms0 =>
          rw [hb] at h
          simp only [] at h
          cases hrest : buildPaths fuel spec rest with
          | none => rw [hrest] at h; simp at h
          | some rs =>
            rw [hrest] at h
            simp at h
            subst h
            obtain ⟨ms, hm1, hm2⟩ := ih hrest hmem2
            exact ⟨ms, List.mem_cons_of_mem _ hm1, hm2⟩
      · rw [if_neg h0] at h
        exact ih h hmem2

theorem generateSpecFile_paths {fuel : Nat} {spec out : J}
    {pentries : List (String × J)}
    (hp : jget spec "paths" = J.obj pentries)
    (h : generateSpecFile fuel spec = some out) :
    ∃ prec, out = J.obj [("paths", J.obj prec)] ∧
      buildPaths fuel spec pentries = some prec := by
  unfold generateSpecFile at h
  rw [hp] at h
  rw [show jtruthy (J.obj pentries) = true from rfl] at h
  simp only [if_true, jentries] at h
  cases hb : buildPaths fuel spec pentries with
  | none => rw [hb] at h; simp at h
  | some prec =>
    rw [hb] at h
    simp at h
    exact ⟨prec, h.symm, rfl⟩

/-- C7: for every operation entry the projector emits, the tag list is
the operation's own tags with the derived product prepended if and only
if a product is derived and no existing tag equals it under
case-insensitive exact string equality (first conjunct, end to end
through `generateSpecFile`); in particular for
`/zones/\x7bzone_id\x7d/dns_records` with existing tags
`["DNS Records"]`, the emitted tags are
`["dns_records", "DNS Records"]` (second conjunct). -/
theorem C7_tag_prepend :
    (∀ fuel : Nat, ∀ spec out item : J, ∀ pentries : List (String × J),
      ∀ path m : String,
      jget spec "paths" = J.obj pentries →
      (path, item) ∈ pentries → jtruthy item = true →
      m ∈ HTTP_METHODS → jtruthy (jget item m) = true →
      generateSpecFile fuel spec = some out →
      ∃ prec ms r, out = J.obj [("paths", J.obj prec)] ∧
        (path, J.obj ms) ∈ prec ∧ (m, r) ∈ ms ∧
        jget r "tags" = J.arr
          (match extractProduct path with
           | some product =>
             if (copyTags (jget (jget item m) "tags")).any (tagMatches product)
             then copyTags (jget (jget item m) "tags")
             else J.str product :: copyTags (jget (jget item m) "tags")
           | none => copyTags (jget (jget item m) "tags"))) ∧
    generateSpecFile 9 (J.obj [("paths", J.obj [("/zones/\x7bzone_id\x7d/dns_records", J.obj [("get", J.obj [("tags", J.arr [J.str "DNS Records"])])])])]) =
      some (J.obj [("paths", J.obj [("/zones/\x7bzone_id\x7d/dns_records", J.obj [("get", J.obj [("summary", J.undef), ("description", J.undef), ("tags", J.arr [J.str "dns_records", J.str "DNS Records"]), ("parameters", J.undef), ("requestBody", J.undef), ("responses", J.undef)])])])]) := by
  constructor
  · intro fuel spec out item pentries path m hp hmem ht hm htm h
    obtain ⟨prec, hout, hbp⟩ := generateSpecFile_paths hp h
    obtain ⟨ms, hms, hbm⟩ := buildPaths_mem hbp hmem ht
    obtain ⟨r, hr, hbo⟩ := buildMethods_mem hbm hm htm
    refine ⟨prec, ms, r, hout, hms, hr, ?_⟩
    rw [buildOp_tags hbo]
    unfold opTags
    cases hx : extractProduct path <;> simp [hx]
  · rfl

theorem C7_tag_prepend_witness :
    ∃ prec ms r,
      (J.obj [("paths", J.obj [("/zones/\x7bzone_id\x7d/dns_records", J.obj [("get", J.obj [("summary", J.undef), ("description", J.undef), ("tags", J.arr [J.str "dns_records", J.str "DNS Records"]), ("parameters", J.undef), ("requestBody", J.undef), ("responses", J.undef)])])])] : J) = J.obj [("paths", J.obj prec)] ∧
      ("/zones/\x7bzone_id\x7d/dns_records", J.obj ms) ∈ prec ∧
      ("get", r) ∈ ms ∧
      jget r "tags" = J.arr
        (match extractProduct "/zones/\x7bzone_id\x7d/dns_records" with
         | some product =>
           if (copyTags (jget (jget (J.obj [("get", J.obj [("tags", J.arr [J.str "DNS Records"])])]) "get") "tags")).any (tagMatches product)
           then copyTags (jget (jget (J.obj [("get", J.obj [("tags", J.arr [J.str "DNS Records"])])]) "get") "tags")
           else J.str product :: copyTags (jget (jget (J.obj [("get", J.obj [("tags", J.arr [J.str "DNS Records"])])]) "get") "tags")
         | none => copyTags (jget (jget (J.obj [("get", J.obj [("tags", J.arr [J.str "DNS Records"])])]) "get") "tags")) :=
  C7_tag_prepend.1 9
    (J.obj [("paths", J.obj [("/zones/\x7bzone_id\x7d/dns_records", J.obj [("get", J.obj [("tags", J.arr [J.str "DNS Records"])])])])])
    (J.obj [("paths", J.obj [("/zones/\x7bzone_id\x7d/dns_records", J.obj [("get", J.obj [("summary", J.undef), ("description", J.undef), ("tags", J.arr [J.str "dns_records", J.str "DNS Records"]), ("parameters", J.undef), ("requestBody", J.undef), ("responses", J.undef)])])])])
    (J.obj [("get", J.obj [("tags", J.arr [J.str "DNS Records"])])])
    [("/zones/\x7bzone_id\x7d/dns_records", J.obj [("get", J.obj [("tags", J.arr [J.str "DNS Records"])])])]
    "/zones/\x7bzone_id\x7d/dns_records" "get"
    rfl (List.mem_cons_self _ _) rfl (by simp [HTTP_METHODS]) rfl rfl

/-- C8: the reduced document considers exactly the five methods
get/post/put/patch/delete: the emitted record for a path has exactly the
method keys of that closed list whose operation is present (truthy), in
that order (first conjunct, end to end through `generateSpecFile`); a
path defining only `get` and the unrecognized `options` yields a record
with only the `get` key (second conjunct). -/
theorem C8_method_filter :
    (∀ fuel : Nat, ∀ spec out item : J, ∀ pentries : List (String × J),
      ∀ path : String,
      jget spec "paths" = J.obj pentries →
      (path, item) ∈ pentries → jtruthy item = true →
      generateSpecFile fuel spec = some out →
      ∃ prec ms, out = J.obj [("paths", J.obj prec)] ∧
        (path, J.obj ms) ∈ prec ∧
        ms.map Prod.fst = HTTP_METHODS.filter (fun m => jtruthy (jget item m))) ∧
    generateSpecFile 9 (J.obj [("paths", J.obj [("/user/tokens", J.obj [("get", J.obj [("summary", J.str "list")]), ("options", J.obj [("summary", J.str "cors")])])])]) =
      some (J.obj [("paths", J.obj [("/user/tokens", J.obj [("get", J.obj [("summary", J.str "list"), ("description", J.undef), ("tags", J.arr []), ("parameters", J.undef), ("requestBody", J.undef), ("responses", J.undef)])])])]) := by
  constructor
  · intro fuel spec out item pentries path hp hmem ht h
    obtain ⟨prec, hout, hbp⟩ := generateSpecFile_paths hp h
    obtain ⟨ms, hms, hbm⟩ := buildPaths_mem hbp hmem ht
    exact ⟨prec, ms, hout, hms, buildMethods_keys hbm⟩
  · rfl

theorem C8_method_filter_witness :
    ∃ prec ms,
      (J.obj [("paths", J.obj [("/user/tokens", J.obj [("get", J.obj [("summary", J.str "list"), ("description", J.undef), ("tags", J.arr []), ("parameters", J.undef), ("requestBody", J.undef), ("responses", J.undef)])])])] : J) = J.obj [("paths", J.obj prec)] ∧
      ("/user/tokens", J.obj ms) ∈ prec ∧
      ms.map Prod.fst = HTTP_METHODS.filter (fun m =>
        jtruthy (jget (J.obj [("get", J.obj [("summary", J.str "list")]), ("options", J.obj [("summary", J.str "cors")])]) m)) :=
  C8_method_filter.1 9
    (J.obj [("paths", J.obj [("/user/tokens", J.obj [("get", J.obj [("summary", J.str "list")]), ("options", J.obj [("summary", J.str "cors")])])])])
    (J.obj [("paths", J.obj [("/user/tokens", J.obj [("get", J.obj [("summary", J.str "list"), ("description", J.undef), ("tags", J.arr []), ("parameters", J.undef), ("requestBody", J.undef), ("responses", J.undef)])])])])
    (J.obj [("get", J.obj [("summary", J.str "list")]), ("options", J.obj [("summary", J.str "cors")])])
    [("/user/tokens", J.obj [("get", J.obj [("summary", J.str "list")]), ("options", J.obj [("summary", J.str "cors")])])]
    "/user/tokens"
    rfl (List.mem_cons_self _ _) rfl rfl

/-! ### The product list: permutation, order and counts -/

theorem insertDesc_perm (x : String × Nat) (l : List (String × Nat)) :
    List.Perm (insertDesc x l) (x :: l) := by
  induction l with
  | nil => exact List.Perm.refl _
  | cons y ys ih =>
    simp only [insertDesc]
    by_cases h : x.2 < y.2
    · rw [if_pos h]
      exact List.Perm.trans (List.Perm.cons y ih) (List.Perm.swap x y ys)
    · rw [if_neg h]

theorem sortDesc_perm (l : List (String × Nat)) : List.Perm (sortDesc l) l := by
  induction l with
  | nil => exact List.Perm.refl _
  | cons x xs ih =>
    rw [show sortDesc (x :: xs) = insertDesc x (sortDesc xs) from by simp [sortDesc]]
    exact List.Perm.trans (insertDesc_perm _ _) (List.Perm.cons x ih)

theorem insertStr_perm (x : String) (l : List String) :
    List.Perm (insertStr x l) (x :: l) := by
  induction l with
  | nil => exact List.Perm.refl _
  | cons y ys ih =>
    simp only [insertStr]
    by_cases h : strLe x y = true
    · rw [if_pos h]
    · rw [if_neg h]
      exact List.Perm.trans (List.Perm.cons y ih) (List.Perm.swap x y ys)

theorem sortStrings_perm (l : List String) : List.Perm (sortStrings l) l := by
  induction l with
  | nil => exact List.Perm.refl _
  | cons x xs ih =>
    rw [show sortStrings (x :: xs) = insertStr x (sortStrings xs) from by
      simp [sortStrings]]
    exact List.Perm.trans (insertStr_perm _ _) (List.Perm.cons x ih)

theorem insertDesc_sorted {l : List (String × Nat)} (x : String × Nat)
    (h : l.Pairwise (fun a b => b.2 ≤ a.2)) :
    (insertDesc x l).Pairwise (fun a b => b.2 ≤ a.2) := by
  induction l with
  | nil => simp [insertDesc]
  | cons y ys ih =>
    obtain ⟨hy, hys⟩ := List.pairwise_cons.mp h
    simp only [insertDesc]
    by_cases hc : x.2 < y.2
    · rw [if_pos hc]
      apply List.pairwise_cons.mpr
      refine ⟨?_, ih hys⟩
      intro a ha
      rcases List.mem_cons.mp ((insertDesc_perm x ys).mem_iff.mp ha) with rfl | hmem
      · omega
      · exact hy a hmem
    · rw [if_neg hc]
      apply List.pairwise_cons.mpr
      refine ⟨?_, List.pairwise_cons.mpr ⟨hy, hys⟩⟩
      intro a ha
      rcases List.mem_cons.mp ha with rfl | hmem
      · omega
      · have := hy a hmem
        omega

theorem sortDesc_sorted (l : List (String × Nat)) :
    (sortDesc l).Pairwise (fun a b => b.2 ≤ a.2) := by
  induction l with
  | nil => simp [sortDesc]
  | cons x xs ih =>
    rw [show sortDesc (x :: xs) = insertDesc x (sortDesc xs) from by simp [sortDesc]]
    exact insertDesc_sorted x ih

theorem bump_lookup_self (acc : List (String × Nat)) (p : String) :
    List.lookup p (bump acc p) = some ((List.lookup p acc).getD 0 + 1) := by
  induction acc with
  | nil => simp [bump, List.lookup]
  | cons e rest ih =>
    obtain ⟨q, n⟩ := e
    by_cases h : q = p
    · subst h
      simp [bump, List.lookup]
    · have h2 : (p == q) = false := by
        simp
        exact fun e => h e.symm
      simp [bump, h, List.lookup, h2, ih]

theorem bump_lookup_other {q p : String} (hne : q ≠ p)
    (acc : List (String × Nat)) :
    List.lookup q (bump acc p) = List.lookup q acc := by
  induction acc with
  | nil =>
    have h2 : (q == p) = false := by simpa using hne
    simp [bump, List.lookup, h2]
  | cons e rest ih =>
    obtain ⟨q0, n⟩ := e
    by_cases h : q0 = p
    · subst h
      have h2 : (q == q0) = false := by simpa using hne
      simp [bump, List.lookup, h2]
    · simp [bump, h, List.lookup, ih]

theorem bump_keys (acc : List (String × Nat)) (p : String) :
    (bump acc p).map Prod.fst =
      if p ∈ acc.map Prod.fst then acc.map Prod.fst
      else acc.map Prod.fst ++ [p] := by
  induction acc with
  | nil => simp [bump]
  | cons e rest ih =>
    obtain ⟨q, n⟩ := e
    by_cases h : q = p
    · subst h
      simp [bump]
    · have h2 : ¬ p = q := fun e => h e.symm
      simp [bump, h, ih, h2]
      by_cases hm : p ∈ rest.map Prod.fst <;> simp [hm, h2]

theorem bump_nodup {acc : List (String × Nat)} (p : String)
    (h : (acc.map Prod.fst).Nodup) : ((bump acc p).map Prod.fst).Nodup := by
  rw [bump_keys]
  by_cases hm : p ∈ acc.map Prod.fst
  · rw [if_pos hm]; exact h
  · rw [if_neg hm]
    simp [List.nodup_append, h, hm]

theorem countProducts_nodup (ks : List String) :
    ∀ acc : List (String × Nat), (acc.map Prod.fst).Nodup →
      ((countProducts acc ks).map Prod.fst).Nodup := by
  induction ks with
  | nil => intro acc h; simpa [countProducts] using h
  | cons k rest ih =>
    intro acc h
    simp only [countProducts]
    cases hx : extractProduct k with
    | none => exact ih acc h
    | some q => exact ih (bump acc q) (bump_nodup q h)

theorem countProducts_lookup (ks : List String) :
    ∀ acc : List (String × Nat), ∀ p : String,
      List.lookup p (countProducts acc ks) =
        match List.lookup p acc with
        | some n => some (n + ks.countP (fun k => extractProduct k == some p))
        | none =>
          if ks.countP (fun k => extractProduct k == some p) = 0 then none
          else some (ks.countP (fun k => extractProduct k == some p)) := by
  induction ks with
  | nil =>
    intro acc p
    simp only [countProducts, List.countP_nil]
    cases List.lookup p acc <;> simp
  | cons k rest ih =>
    intro acc p
    simp only [countProducts]
    cases hx : extractProduct k with
    | none =>
      have hcp : (k :: rest).countP (fun k => extractProduct k == some p) =
          rest.countP (fun k => extractProduct k == some p) := by
        rw [List.countP_cons]
        simp [hx]
      rw [ih acc p, hcp]
    | some q =>
      by_cases hq : q = p
      · subst hq
        have hcp : (k :: rest).countP (fun k => extractProduct k == some q) =
            rest.countP (fun k => extractProduct k == some q) + 1 := by
          rw [List.countP_cons]
          simp [hx]
        rw [ih (bump acc q) q, hcp, bump_lookup_self]
        cases hl : List.lookup q acc with
        | none =>
          simp only [hl, Option.getD]
          have : rest.countP (fun k => extractProduct k == some q) + 1 ≠ 0 := by omega
          simp [this]
          omega
        | some n =>
          simp only [hl, Option.getD]
          congr 1
          omega
      · have hcp : (k :: rest).countP (fun k => extractProduct k == some p) =
            rest.countP (fun k => extractProduct k == some p) := by
          rw [List.countP_cons]
          simp [hx, hq]
        rw [ih (bump acc q) p,
          bump_lookup_other (show p ≠ q from fun e => hq e.symm) acc, hcp]

theorem lookup_some_mem {l : List (String × Nat)} {p : String} {n : Nat}
    (h : List.lookup p l = some n) : (p, n) ∈ l := by
  induction l with
  | nil => simp [List.lookup] at h
  | cons e rest ih =>
    obtain ⟨q, m⟩ := e
    by_cases hq : p = q
    · subst hq
      simp [List.lookup] at h
      simp [h]
    · have h2 : (p == q) = false := by simpa using hq
      simp [List.lookup, h2] at h
      exact List.mem_cons_of_mem _ (ih h)

theorem mem_lookup_of_nodup {l : List (String × Nat)}
    (hn : (l.map Prod.fst).Nodup) {p : String} {n : Nat} (h : (p, n) ∈ l) :
    List.lookup p l = some n := by
  induction l with
  | nil => cases h
  | cons e rest ih =>
    obtain ⟨q, m⟩ := e
    simp only [List.map_cons, List.nodup_cons] at hn
    rcases List.mem_cons.mp h with heq | hmem
    · cases heq
      simp [List.lookup]
    · have hq : p ≠ q := by
        intro e
        subst e
        exact hn.1 (List.mem_map.mpr ⟨(p, n), hmem, rfl⟩)
      have h2 : (p == q) = false := by simpa using hq
      simp [List.lookup, h2]
      exact ih hn.2 hmem

/-- C9: the product list contains each distinct derived product exactly
once (first conjunct: distinct names), ordered by descending count of
path entries deriving it (second conjunct), where the count attached to
each product is exactly the number of path keys deriving it and only
products derived by at least one key appear (third conjunct); ties are
broken by first encounter while iterating the path keys in sorted order
— checked by the two concrete demos: counts a=3, b=5, c=1 give
["b", "a", "c"], and a tie between "alpha" and "beta" is listed in
sorted-path first-encounter order even though the input lists the "beta"
path first. -/
theorem C9_product_order :
    (∀ keys : List String,
      ((sortedProducts keys).map Prod.fst).Nodup ∧
      (sortedProducts keys).Pairwise (fun a b => b.2 ≤ a.2) ∧
      (∀ p n, ((p, n) ∈ sortedProducts keys ↔
        n = keys.countP (fun k => extractProduct k == some p) ∧ n ≠ 0))) ∧
    productsList (J.obj [("paths", J.obj [
      ("/accounts/\x7bx\x7d/a/1", J.obj []), ("/accounts/\x7bx\x7d/a/2", J.obj []),
      ("/accounts/\x7bx\x7d/a/3", J.obj []),
      ("/accounts/\x7bx\x7d/b/1", J.obj []), ("/accounts/\x7bx\x7d/b/2", J.obj []),
      ("/accounts/\x7bx\x7d/b/3", J.obj []), ("/accounts/\x7bx\x7d/b/4", J.obj []),
      ("/zones/\x7by\x7d/b", J.obj []), ("/zones/\x7by\x7d/c", J.obj [])])]) =
      ["b", "a", "c"] ∧
    productsList (J.obj [("paths", J.obj [
      ("/zones/\x7bz\x7d/beta", J.obj []),
      ("/accounts/\x7ba\x7d/alpha", J.obj [])])]) = ["alpha", "beta"] := by
  refine ⟨?_, rfl, rfl⟩
  intro keys
  have hnodup0 : ((countProducts [] (sortStrings keys)).map Prod.fst).Nodup :=
    countProducts_nodup (sortStrings keys) [] (by simp)
  have hperm : List.Perm (sortDesc (countProducts [] (sortStrings keys)))
      (countProducts [] (sortStrings keys)) := sortDesc_perm _
  have hcount : ∀ p : String,
      (sortStrings keys).countP (fun k => extractProduct k == some p) =
        keys.countP (fun k => extractProduct k == some p) :=
    fun p => (sortStrings_perm keys).countP_eq _
  refine ⟨?_, sortDesc_sorted _, ?_⟩
  · have := hperm.map Prod.fst
    exact this.nodup_iff.mpr hnodup0
  · intro p n
    constructor
    · intro hmem
      have hmem2 : (p, n) ∈ countProducts [] (sortStrings keys) :=
        hperm.mem_iff.mp hmem
      have hl := mem_lookup_of_nodup hnodup0 hmem2
      rw [countProducts_lookup (sortStrings keys) [] p] at hl
      simp only [List.lookup] at hl
      by_cases hz : (sortStrings keys).countP (fun k => extractProduct k == some p) = 0
      · rw [if_pos hz] at hl
        simp at hl
      · rw [if_neg hz] at hl
        rw [hcount p] at hz hl
        simp at hl
        exact ⟨hl.symm, by omega⟩
    · intro ⟨hn, hnz⟩
      have hz : (sortStrings keys).countP (fun k => extractProduct k == some p) ≠ 0 := by
        rw [hcount p]
        omega
      have hl : List.lookup p (countProducts [] (sortStrings keys)) = some n := by
        rw [countProducts_lookup (sortStrings keys) [] p]
        simp only [List.lookup]
        rw [if_neg hz, hcount p]
        rw [hn]
      exact hperm.mem_iff.mpr (lookup_some_mem hl)
